import Mathlib

/-!
Verification development for the steam-bulk-uninstaller repository.

The Python sources (`steam.py`, `uninstaller.py`) are embedded shallowly:
filesystem paths become lists of name segments, the filesystem itself becomes
an explicit finite structure, and the VDF parser becomes a total state
machine over a token list.  Machine behaviour that depends on the operating
system (which removals fail, which stat calls fail) is represented by
explicit error tables inside the filesystem state.
-/

namespace SteamBulk

/-- A filesystem path, as a list of name segments (the model of `pathlib.Path`).
Segment lists compare by equality exactly as `Path` objects compare in the
source. `p ++ [s]` models `p / s`. -/
abbrev FPath := List String

/-- `Path(s)` for a raw string taken from a descriptor: a single opaque segment. -/
def pathOf (s : String) : FPath := [s]

/-! ## The VDF tokenizer (`steam.py`, `parse_vdf`, regex `"([^"]*)"|\x7b|\x7d`) -/

/-- One token of the VDF scanner: a quoted string (its contents), an opening
brace or a closing brace.  Matches the three alternatives of the source regex. -/
inductive Tok where
  | str (s : String)
  | lbrace
  | rbrace
deriving DecidableEq

/-- Scan for the next double quote: `splitAtQuote l = some (a, b)` when
`l = a ++ '"' :: b` and `a` is quote-free; `none` when `l` has no quote.
This is the `[^"]*"` part of the regex. -/
def splitAtQuote : List Char → Option (List Char × List Char)
  | [] => none
  | c :: r =>
    if c == '"' then some ([], r)
    else
      match splitAtQuote r with
      | some ab => some (c :: ab.1, ab.2)
      | none => none

/-- Fuelled tokenizer: at `'{'`/`'}'` emit a brace token, at `'"'` emit the
quoted contents when a closing quote follows (otherwise the regex finds no
match at this quote, and scanning resumes at the next character), and skip
every other character.  One unit of fuel per character suffices. -/
def tokenizeF : Nat → List Char → List Tok
  | 0, _ => []
  | _ + 1, [] => []
  | f + 1, c :: r =>
    if c == '{' then Tok.lbrace :: tokenizeF f r
    else if c == '}' then Tok.rbrace :: tokenizeF f r
    else if c == '"' then
      match splitAtQuote r with
      | some ab => Tok.str (String.mk ab.1) :: tokenizeF f ab.2
      | none => tokenizeF f r
    else tokenizeF f r

/-- The token stream of a character list (the `finditer` loop of the source). -/
def tokenize (l : List Char) : List Tok := tokenizeF l.length l

/-! ## The VDF tree and the parser state machine -/

/-- A parsed VDF node: a leaf string or a mapping, the mapping represented as
an association list in insertion order (the model of a Python `dict`). -/
inductive VDF where
  | str (s : String)
  | obj (entries : List (String × VDF))

/-- Python `d[k] = v` on an insertion-ordered `dict`: overwrite in place when
the key is present, append otherwise. -/
def dictSet (l : List (String × VDF)) (k : String) (v : VDF) : List (String × VDF) :=
  if l.any (fun e => e.1 == k) then
    l.map (fun e => if e.1 == k then (k, v) else e)
  else l ++ [(k, v)]

/-- `d.get(k)` on the association list. -/
def vdfLookup (l : List (String × VDF)) (k : String) : Option VDF :=
  (l.find? (fun e => e.1 == k)).map (fun e => e.2)

/-- Parser state: `ctx` is the stack of open enclosing scopes, innermost
first, each remembered together with the key under which the scope being
built will be stored; `cur` is the scope currently being filled; `key` is
the pending key (`current_key` in the source). -/
structure PState where
  ctx : List (List (String × VDF) × String)
  cur : List (String × VDF)
  key : Option String

/-- The starting state: one empty root scope, no pending key. -/
def initState : PState := ⟨[], [], none⟩

/-- One step of the parser loop of `parse_vdf`:
`'{'` with a pending key opens a nested scope (without a pending key it does
nothing); `'}'` closes the innermost scope, or does nothing at the root; a
quoted string becomes the pending key, or the value of the pending key. -/
def step (st : PState) (t : Tok) : PState :=
  match t with
  | Tok.lbrace =>
    match st.key with
    | some k => ⟨(st.cur, k) :: st.ctx, [], none⟩
    | none => st
  | Tok.rbrace =>
    match st.ctx with
    | [] => st
    | (pcur, k) :: rest => ⟨rest, dictSet pcur k (VDF.obj st.cur), st.key⟩
  | Tok.str v =>
    match st.key with
    | none => ⟨st.ctx, st.cur, some v⟩
    | some k => ⟨st.ctx, dictSet st.cur k (VDF.str v), none⟩

/-- Fold the still-open scopes back into the root at end of input.  In the
source every open dict was already bound into its parent when its `{` was
seen, so an unterminated nest is visible from the root; a pending key is
dropped. -/
def finalize : List (List (String × VDF) × String) → List (String × VDF) → List (String × VDF)
  | [], cur => cur
  | (pcur, k) :: rest, cur => finalize rest (dictSet pcur k (VDF.obj cur))

/-- Run the parser loop over a token list and extract the root mapping. -/
def parseToks (ts : List Tok) : List (String × VDF) :=
  let st := ts.foldl step initState
  finalize st.ctx st.cur

/-- `parse_vdf` of `steam.py`: tokenize, fold the state machine, finalize. -/
def parse_vdf (s : String) : List (String × VDF) := parseToks (tokenize s.data)

/-- Quote-freeness of a character list (needed so that rendering a string
back into quotes re-tokenizes to the same token). -/
def noQuote : List Char → Bool
  | [] => true
  | c :: r => !(c == '"') && noQuote r

/-! ## The well-formed nested key-value grammar (specification side, for the
functional-correctness claim about `parse_vdf`): a document is a sequence of
key/value pairs and keyed sections. -/

/-- Grammar of well-formed VDF input (modelled from the spec: quoted strings
alternate as key/value pairs, or a quoted key followed by a braced nested
block; written sequence-style so recursion is structural). -/
inductive Doc where
  | nil
  | kv (k v : String) (rest : Doc)
  | sec (k : String) (sub : Doc) (rest : Doc)

/-- Render a document back to raw VDF text (as characters). -/
def renderChars : Doc → List Char
  | Doc.nil => []
  | Doc.kv k v rest => '"' :: (k.data ++ '"' :: '"' :: (v.data ++ '"' :: renderChars rest))
  | Doc.sec k sub rest => '"' :: (k.data ++ '"' :: '{' :: (renderChars sub ++ '}' :: renderChars rest))

/-- The token stream a well-formed document denotes. -/
def docToks : Doc → List Tok
  | Doc.nil => []
  | Doc.kv k v rest => Tok.str k :: Tok.str v :: docToks rest
  | Doc.sec k sub rest => Tok.str k :: Tok.lbrace :: (docToks sub ++ Tok.rbrace :: docToks rest)

/-- The mapping a well-formed document denotes, built left to right with
last-write-wins `dictSet` (the expected parse result). -/
def dgo : Doc → List (String × VDF) → List (String × VDF)
  | Doc.nil, acc => acc
  | Doc.kv k v rest, acc => dgo rest (dictSet acc k (VDF.str v))
  | Doc.sec k sub rest, acc => dgo rest (dictSet acc k (VDF.obj (dgo sub [])))

/-- All keys and values of the document are quote-free (the grammar's side
condition: a quoted token may hold any character except a double quote). -/
def quoteFree : Doc → Bool
  | Doc.nil => true
  | Doc.kv k v rest => noQuote k.data && noQuote v.data && quoteFree rest
  | Doc.sec k sub rest => noQuote k.data && quoteFree sub && quoteFree rest

/-! ## `SteamGame` and its derived paths (`steam.py`) -/

/-- The `SteamGame` dataclass. -/
structure SteamGame where
  appid : String
  name : String
  install_dir : String
  size_on_disk : Int
  library_path : FPath
  has_compatdata : Bool
  has_shadercache : Bool
  playtime_minutes : Int
deriving DecidableEq

/-- `manifest_path`: `library / "steamapps" / f"appmanifest_{appid}.acf"`. -/
def SteamGame.manifest_path (g : SteamGame) : FPath :=
  g.library_path ++ ["steamapps", "appmanifest_" ++ g.appid ++ ".acf"]

/-- `game_path`: `library / "steamapps" / "common" / install_dir`. -/
def SteamGame.game_path (g : SteamGame) : FPath :=
  g.library_path ++ ["steamapps", "common", g.install_dir]

/-- `compatdata_path`: `library / "steamapps" / "compatdata" / appid`. -/
def SteamGame.compatdata_path (g : SteamGame) : FPath :=
  g.library_path ++ ["steamapps", "compatdata", g.appid]

/-- `shadercache_path`: `library / "steamapps" / "shadercache" / appid`. -/
def SteamGame.shadercache_path (g : SteamGame) : FPath :=
  g.library_path ++ ["steamapps", "shadercache", g.appid]

/-! ## The catalog-side filesystem model (read-only view used by `steam.py`) -/

/-- Filesystem as seen by the catalog builder: readable text files with their
contents, and directories.  Listing order of the lists models the on-disk
iteration order of `glob`/`iterdir`. -/
structure CatFS where
  textFiles : List (FPath × String)
  dirs : List FPath

/-- `path.read_text()` (also the existence test for the file). -/
def CatFS.readText (fs : CatFS) (p : FPath) : Option String :=
  (fs.textFiles.find? (fun e => e.1 == p)).map (fun e => e.2)

/-- `path.exists()`. -/
def CatFS.existsB (fs : CatFS) (p : FPath) : Bool :=
  fs.textFiles.any (fun e => e.1 == p) || fs.dirs.any (fun d => d == p)

/-! ## Python's stable ascending sort (for `sorted(games, key=...)`) -/

/-- Lexicographic code-point comparison of character lists: the model of
Python string `<=`. -/
def strLeB : List Char → List Char → Bool
  | [], _ => true
  | _ :: _, [] => false
  | a :: as, b :: bs =>
    if a.toNat < b.toNat then true
    else if b.toNat < a.toNat then false
    else strLeB as bs

/-- The sort key comparison of the source: case-insensitive (lowercased)
display name, ascending. -/
def nameLe (g₁ g₂ : SteamGame) : Bool :=
  strLeB (g₁.name.data.map Char.toLower) (g₂.name.data.map Char.toLower)

/-- Stable insertion into an ascending list: a new element goes after every
element that compares `le` to it (so equal keys keep first-come order). -/
def insSorted (le : α → α → Bool) (x : α) : List α → List α
  | [] => [x]
  | y :: ys => if le y x then y :: insSorted le x ys else x :: y :: ys

/-- Stable ascending sort (the model of Python `sorted` with a key):
insert the elements left to right. -/
def pySorted (le : α → α → Bool) (l : List α) : List α :=
  l.foldl (fun acc x => insSorted le x acc) []

/-- Digit-string accumulator for integer parsing. -/
def digitsAcc : Nat → List Char → Option Nat
  | acc, [] => some acc
  | acc, c :: r =>
    if 48 ≤ c.toNat && c.toNat ≤ 57 then digitsAcc (acc * 10 + (c.toNat - 48)) r else none

/-- `int(s)` for a decimal literal with optional leading minus (per-field
integer parsing of the source; failures fall back to the caller's default). -/
def pyInt (s : String) : Option Int :=
  match s.data with
  | [] => none
  | '-' :: rest =>
    match rest with
    | [] => none
    | _ => (digitsAcc 0 rest).map (fun n => -(n : Int))
  | l => (digitsAcc 0 l).map (fun n => (n : Int))

/-! ## Library folder discovery (`get_library_folders`) -/

/-- Walk the entries of the `"libraryfolders"` mapping in order, keeping
`Path(value["path"])` for every dict-valued entry with a `"path"` key whose
referenced path exists on disk.  A dict-valued `"path"` is a `TypeError` in
the source (`Path()` of a dict), modelled as `none`. -/
def collectLibs (fs : CatFS) : List (String × VDF) → Option (List FPath)
  | [] => some []
  | (_, VDF.str _) :: rest => collectLibs fs rest
  | (_, VDF.obj sub) :: rest =>
    match vdfLookup sub "path" with
    | none => collectLibs fs rest
    | some (VDF.obj _) => none
    | some (VDF.str s) =>
      (collectLibs fs rest).map
        (fun ls => if fs.existsB (pathOf s) then pathOf s :: ls else ls)

/-- `get_library_folders` of `steam.py`.  `none` models an uncaught exception
(the function has no error handling): `"libraryfolders"` bound to a plain
string makes `.items()` raise, and a dict-valued `"path"` makes `Path()`
raise.  Otherwise: absent descriptor gives `[root]`; else the existing
referenced paths in descriptor order, with the probed root inserted at the
front when not already among them. -/
def get_library_folders (fs : CatFS) (steam_root : FPath) : Option (List FPath) :=
  match fs.readText (steam_root ++ ["steamapps", "libraryfolders.vdf"]) with
  | none => some [steam_root]
  | some content =>
    match vdfLookup (parse_vdf content) "libraryfolders" with
    | some (VDF.str _) => none
    | some (VDF.obj lib) =>
      (collectLibs fs lib).map
        (fun libraries => if libraries.any (fun p => p == steam_root) then libraries
          else steam_root :: libraries)
    | none =>
      some [steam_root]

/-! ## Usage metadata (`get_playtime_data`) -/

/-- `d.get(k, {})` followed by use as a mapping: a missing key is an empty
mapping, a string value raises downstream (`none`, the per-user handler
swallows it). -/
def navDict (d : List (String × VDF)) (k : String) : Option (List (String × VDF)) :=
  match vdfLookup d k with
  | none => some []
  | some (VDF.obj e) => some e
  | some (VDF.str _) => none

/-- Navigate a fixed chain of nested keys. -/
def navChain (d : List (String × VDF)) : List String → Option (List (String × VDF))
  | [] => some d
  | k :: ks =>
    match navDict d k with
    | none => none
    | some d' => navChain d' ks

/-- `playtime[appid] = minutes` guarded by keep-the-highest
(`appid not in playtime or minutes > playtime[appid]`). -/
def ptMax (acc : List (String × Int)) (k : String) (n : Int) : List (String × Int) :=
  match acc.find? (fun e => e.1 == k) with
  | none => acc ++ [(k, n)]
  | some e => if e.2 < n then acc.map (fun e' => if e'.1 == k then (k, n) else e') else acc

/-- Fold one user's `apps` mapping into the playtime table: dict-valued
entries with a string `"Playtime"` that parses as an integer contribute,
everything else is skipped. -/
def userPlaytime (acc : List (String × Int)) (apps : List (String × VDF)) : List (String × Int) :=
  apps.foldl
    (fun acc kv =>
      match kv.2 with
      | VDF.obj ad =>
        match vdfLookup ad "Playtime" with
        | some (VDF.str s) =>
          match pyInt s with
          | some n => ptMax acc kv.1 n
          | none => acc
        | _ => acc
      | VDF.str _ => acc)
    acc

/-- Immediate child directories of a directory, in listing order
(`iterdir` filtered by `is_dir`). -/
def childDirs (fs : CatFS) (d : FPath) : List FPath :=
  fs.dirs.filter (fun c => d.isPrefixOf c && c.length == d.length + 1)

/-- `get_playtime_data` of `steam.py`: scan per-user `localconfig.vdf`
files under `userdata`, navigate to `apps`, and keep the maximum playtime
per appid across users.  Per-user failures contribute nothing. -/
def get_playtime_data (fs : CatFS) (steam_root : FPath) : List (String × Int) :=
  let userdata := steam_root ++ ["userdata"]
  if fs.existsB userdata then
    (childDirs fs userdata).foldl
      (fun acc ud =>
        match fs.readText (ud ++ ["config", "localconfig.vdf"]) with
        | none => acc
        | some content =>
          match navChain (parse_vdf content)
              ["UserLocalConfigStore", "Software", "Valve", "Steam", "apps"] with
          | none => acc
          | some apps => userPlaytime acc apps)
      []
  else []

/-! ## Installed-game enumeration (`get_installed_games`) -/

/-- Substring test on character lists (Python's `needle in haystack`). -/
def hasSub (n : List Char) : List Char → Bool
  | [] => n.isEmpty
  | c :: t => n.isPrefixOf (c :: t) || hasSub n t

/-- Python `sub in s` on strings. -/
def hasSubstrS (s sub : String) : Bool := hasSub sub.data s.data

/-- A field of the `AppState` mapping read as a string with a default:
a missing key yields the default, a dict value makes the per-manifest
handler skip the manifest (`none`).  In the source a dict-valued `appid`,
`installdir` or `SizeOnDisk` raises inside the per-manifest `try` (path
joining or `int()`), which is exactly a skip; a dict-valued `name` would
instead surface later at the sort key — the model treats that pathological
descriptor as skipped as well. -/
def strField (entries : List (String × VDF)) (k dflt : String) : Option String :=
  match vdfLookup entries k with
  | none => some dflt
  | some (VDF.str s) => some s
  | some (VDF.obj _) => none

/-- Does this path name an `appmanifest_*.acf` file directly inside the given
`steamapps` directory? -/
def isManifestIn (steamapps : FPath) (p : FPath) : Bool :=
  match p.drop steamapps.length with
  | [n] =>
    steamapps.isPrefixOf p && "appmanifest_".data.isPrefixOf n.data &&
      ".acf".data.isSuffixOf n.data && decide (16 ≤ n.data.length)
  | _ => false

/-- `steamapps.glob("appmanifest_*.acf")`, in file-listing order. -/
def manifestFiles (fs : CatFS) (steamapps : FPath) : List (FPath × String) :=
  fs.textFiles.filter (fun e => isManifestIn steamapps e.1)

/-- Process one manifest file (the body of the `for manifest in ...` loop):
parse, read the `AppState` fields, skip runtime/tool entries and manifests
whose payload directory is missing, and build the `SteamGame`.  `none` is a
`continue` (including the paths on which the source's per-manifest
`except Exception` fires). -/
def processManifest (fs : CatFS) (library_path : FPath) (pt : List (String × Int))
    (mc : FPath × String) : Option SteamGame :=
  match vdfLookup (parse_vdf mc.2) "AppState" with
  | some (VDF.obj app_state) =>
    if app_state.isEmpty then none
    else
      match strField app_state "appid" "", strField app_state "name" "Unknown",
          strField app_state "installdir" "", strField app_state "SizeOnDisk" "0" with
      | some appid, some name, some install_dir, some size_str =>
        if hasSubstrS name "Runtime" || hasSubstrS name "Proton" then none
        else if fs.existsB (library_path ++ ["steamapps", "common", install_dir]) then
          some { appid := appid, name := name, install_dir := install_dir,
                 size_on_disk := (pyInt size_str).getD 0, library_path := library_path,
                 has_compatdata := fs.existsB (library_path ++ ["steamapps", "compatdata", appid]),
                 has_shadercache := fs.existsB (library_path ++ ["steamapps", "shadercache", appid]),
                 playtime_minutes :=
                   ((pt.find? (fun e => e.1 == appid)).map (fun e => e.2)).getD 0 }
        else none
      | _, _, _, _ => none
  | _ => none

/-- `get_installed_games` of `steam.py`: enumerate manifests in a library's
`steamapps` directory, build a game per valid manifest, and sort by
lowercased name. -/
def get_installed_games (fs : CatFS) (library_path : FPath)
    (pt : List (String × Int)) : List SteamGame :=
  let steamapps := library_path ++ ["steamapps"]
  if fs.existsB steamapps then
    pySorted nameLe ((manifestFiles fs steamapps).filterMap (processManifest fs library_path pt))
  else []

/-! ## Root discovery and the full catalog -/

/-- `find_steam_root` of `steam.py`: the first of three home-relative
candidates that exists and contains a `steamapps` subdirectory. -/
def find_steam_root (fs : CatFS) (home : FPath) : Option FPath :=
  [home ++ [".local", "share", "Steam"],
   home ++ [".steam", "steam"],
   home ++ [".steam", "debian-installation"]].find?
    (fun p => fs.existsB p && fs.existsB (p ++ ["steamapps"]))

/-- `get_all_installed_games` of `steam.py`: locate the root, enumerate
libraries, load playtime once, list games per library, concatenate and sort
by lowercased name.  `none` propagates the uncaught exception of
`get_library_folders`. -/
def get_all_installed_games (fs : CatFS) (home : FPath) : Option (List SteamGame) :=
  match find_steam_root fs home with
  | none => some []
  | some steam_root =>
    match get_library_folders fs steam_root with
    | none => none
    | some libraries =>
      let pt := get_playtime_data fs steam_root
      some (pySorted nameLe
        ((libraries.map (fun lib => get_installed_games fs lib pt)).flatten))

/-! ## The deletion-side filesystem model (`uninstaller.py`)

Files carry sizes; directories are listed explicitly; removal of a directory
removes everything at or below it.  Which destructive or stat operations the
operating system makes fail is part of the modelled environment: `rmErrs`
gives the error raised by `unlink`/`rmtree` at a path, `statErrs` the error
raised by `stat` at a path (empty tables model a fault-free run). -/

/-- The coarse error taxonomy of the source's three `except` clauses:
`PermissionError`, other `OSError`, any other exception. -/
inductive PyErr where
  | perm (msg : String)
  | os (msg : String)
  | other (msg : String)
deriving DecidableEq

/-- Deletion-side filesystem state. -/
structure FS where
  files : List (FPath × Nat)
  dirs : List FPath
  rmErrs : List (FPath × PyErr)
  statErrs : List (FPath × PyErr)
deriving DecidableEq

/-- `path.is_file()`. -/
def FS.isFileB (fs : FS) (p : FPath) : Bool :=
  fs.files.any (fun e => e.1 == p)

/-- `path.exists()`. -/
def FS.existsB (fs : FS) (p : FPath) : Bool :=
  fs.isFileB p || fs.dirs.any (fun d => d == p)

/-- `path.stat().st_size` for an existing file. -/
def FS.fileSize (fs : FS) (p : FPath) : Nat :=
  match fs.files.find? (fun e => e.1 == p) with
  | some e => e.2
  | none => 0

/-- Error-table lookup. -/
def errAt (tbl : List (FPath × PyErr)) (p : FPath) : Option PyErr :=
  (tbl.find? (fun e => e.1 == p)).map (fun e => e.2)

/-- `get_dir_size` of `uninstaller.py`: 0 for a non-existent path, otherwise
the sum of the sizes of all files strictly below the path (`rglob("*")`,
unreadable entries contributing nothing is inherent in the file table). -/
def get_dir_size (fs : FS) (p : FPath) : Nat :=
  if fs.existsB p then
    ((fs.files.filter (fun e => p.isPrefixOf e.1 && decide (p.length < e.1.length))).map
      (fun e => e.2)).sum
  else 0

/-- `shutil.rmtree`: drop every file and directory at or below `p`. -/
def FS.removeTree (fs : FS) (p : FPath) : FS :=
  ⟨fs.files.filter (fun e => !(p.isPrefixOf e.1)),
   fs.dirs.filter (fun d => !(p.isPrefixOf d)),
   fs.rmErrs, fs.statErrs⟩

/-- `path.unlink`: drop the file entry at `p`. -/
def FS.unlink (fs : FS) (p : FPath) : FS :=
  ⟨fs.files.filter (fun e => !(e.1 == p)),
   fs.dirs, fs.rmErrs, fs.statErrs⟩

/-- Measure one planned path: `stat().st_size` for a file (may raise),
`get_dir_size` for a directory (never raises). -/
def measurePath (fs : FS) (p : FPath) : Except PyErr Nat :=
  if fs.isFileB p then
    match errAt fs.statErrs p with
    | some e => Except.error e
    | none => Except.ok (fs.fileSize p)
  else Except.ok (get_dir_size fs p)

/-- Remove one planned path: `unlink` for a file, `rmtree` for a directory
(either may raise). -/
def removePath (fs : FS) (p : FPath) : Except PyErr FS :=
  match errAt fs.rmErrs p with
  | some e => Except.error e
  | none => Except.ok (if fs.isFileB p then fs.unlink p else fs.removeTree p)

/-! ## The deletion engine -/

/-- `UninstallResult` of `uninstaller.py`. -/
structure UninstallResult where
  game : SteamGame
  success : Bool
  error : Option String
  bytes_freed : Nat
deriving DecidableEq

/-- `UninstallSummary` of `uninstaller.py`. -/
structure UninstallSummary where
  total_games : Nat
  successful : Nat
  failed : Nat
  total_bytes_freed : Nat
  results : List UninstallResult
deriving DecidableEq

/-- `get_game_paths` of `uninstaller.py`: manifest always; payload directory,
compat data and shader cache re-checked for existence at call time. -/
def get_game_paths (fs : FS) (game : SteamGame) : List (FPath × String) :=
  [(game.manifest_path, "manifest")]
  ++ (if fs.existsB game.game_path then [(game.game_path, "game files")] else [])
  ++ (if game.has_compatdata && fs.existsB game.compatdata_path then
        [(game.compatdata_path, "Proton data")] else [])
  ++ (if game.has_shadercache && fs.existsB game.shadercache_path then
        [(game.shadercache_path, "shader cache")] else [])

/-- Outcome of the deletion loop: the filesystem after it, the bytes
accounted, and the error that aborted it (if any). -/
structure DelOut where
  fs : FS
  bytes : Nat
  err : Option PyErr
deriving DecidableEq

/-- The `for path, description in paths_to_delete` loop of `uninstall_game`:
skip missing paths, measure before deleting, delete unless `dry_run`, add the
measured size after a successful delete, and abort the loop on the first
error. -/
def delLoop (dry : Bool) : FS → List (FPath × String) → Nat → DelOut
  | fs, [], acc => ⟨fs, acc, none⟩
  | fs, (p, _) :: rest, acc =>
    if fs.existsB p then
      match measurePath fs p with
      | Except.error e => ⟨fs, acc, some e⟩
      | Except.ok size =>
        if dry then delLoop dry fs rest (acc + size)
        else
          match removePath fs p with
          | Except.error e => ⟨fs, acc, some e⟩
          | Except.ok fs' => delLoop dry fs' rest (acc + size)
    else delLoop dry fs rest acc

/-- The error message of the matching `except` clause. -/
def errMsg : PyErr → String
  | PyErr.perm m => "Permission denied: " ++ m
  | PyErr.os m => "OS error: " ++ m
  | PyErr.other m => m

/-- `uninstall_game` of `uninstaller.py`: run the deletion loop over the
freshly computed plan and package the outcome, classifying an error by its
kind and keeping the bytes accounted so far. -/
def uninstall_game (fs : FS) (game : SteamGame) (dry_run : Bool) : FS × UninstallResult :=
  let out := delLoop dry_run fs (get_game_paths fs game) 0
  match out.err with
  | none => (out.fs, ⟨game, true, none, out.bytes⟩)
  | some e => (out.fs, ⟨game, false, some (errMsg e), out.bytes⟩)

/-- The sequential `for i, game in enumerate(games)` loop of
`uninstall_games`, threading the filesystem through. -/
def runBatch (dry : Bool) : FS → List SteamGame → FS × List UninstallResult
  | fs, [] => (fs, [])
  | fs, g :: gs =>
    let r := uninstall_game fs g dry
    let rest := runBatch dry r.1 gs
    (rest.1, r.2 :: rest.2)

/-- `uninstall_games` of `uninstaller.py`: run the batch sequentially and
aggregate the summary. -/
def uninstall_games (fs : FS) (games : List SteamGame) (dry_run : Bool) :
    FS × UninstallSummary :=
  let b := runBatch dry_run fs games
  let successful := (b.2.filter (fun r => r.success)).length
  (b.1,
   ⟨games.length, successful, games.length - successful,
    (b.2.map (fun r => r.bytes_freed)).sum, b.2⟩)

/-- The four candidate paths of a package, in plan order (independent of the
filesystem; the plan is always a sublist of these). -/
def candPaths (g : SteamGame) : List FPath :=
  [g.manifest_path, g.game_path, g.compatdata_path, g.shadercache_path]

/-- Path separation: neither path is a prefix of the other (so the subtrees
at the two paths cannot share an entry). -/
def sepB (p q : FPath) : Bool :=
  !(p.isPrefixOf q) && !(q.isPrefixOf p)

/-- The paths of a deletion plan. -/
def planPaths (l : List (FPath × String)) : List FPath := l.map (fun e => e.1)

/-- `fs₂` is `fs` with some entries removed, all of them at or below one of
the paths in `P`, and with the same error tables.  This is the shape every
filesystem reachable by the deletion loop has relative to its start. -/
def Agrees (fs fs₂ : FS) (P : List FPath) : Prop :=
  fs₂.rmErrs = fs.rmErrs ∧ fs₂.statErrs = fs.statErrs ∧
  ∃ Rf Rd,
    fs₂.files = fs.files.filter Rf ∧
    fs₂.dirs = fs.dirs.filter Rd ∧
    (∀ x, Rf x = false → ∃ p ∈ P, p.isPrefixOf x.1 = true) ∧
    (∀ d, Rd d = false → ∃ p ∈ P, p.isPrefixOf d = true)

/-! ## Concrete fixtures (for evaluating the theorems on explicit inputs) -/

/-- A game with no auxiliary data, installed in library `["L"]`. -/
def gameA : SteamGame := ⟨"1", "A", "adir", 0, ["L"], false, false, 0⟩

/-- A second game in the same library, with compatibility data. -/
def gameB : SteamGame := ⟨"2", "B", "bdir", 0, ["L"], true, false, 0⟩

/-- A filesystem holding only `gameA`'s 10-byte manifest. -/
def fsOneManifest : FS := ⟨[(gameA.manifest_path, 10)], [], [], []⟩

/-- A fault-free filesystem holding both games' manifests, `gameB`'s payload
directory with one 100-byte file, and `gameB`'s compatdata directory. -/
def fsTwoGames : FS :=
  ⟨[(gameA.manifest_path, 10), (gameB.manifest_path, 7), (gameB.game_path ++ ["x.bin"], 100)],
   [gameB.game_path, gameB.compatdata_path], [], []⟩

/-- Like `fsOneManifest`, but removing the manifest raises `PermissionError`. -/
def fsPermErr : FS :=
  ⟨[(gameA.manifest_path, 10)], [], [(gameA.manifest_path, PyErr.perm "x")], []⟩

/-- A home directory and the Steam root beneath it. -/
def homeW : FPath := ["h"]

/-- The first root candidate under `homeW`. -/
def rootW : FPath := ["h", ".local", "share", "Steam"]

/-- A well-formed manifest descriptor (no `SizeOnDisk`, so it defaults). -/
def manifestW : String :=
  "\"AppState\" \x7b \"appid\" \"10\" \"name\" \"Foo\" \"installdir\" \"Foo\" \x7d"

/-- A catalog filesystem with one library, one manifest and its payload. -/
def catFsW : CatFS :=
  ⟨[(rootW ++ ["steamapps", "appmanifest_10.acf"], manifestW)],
   [rootW, rootW ++ ["steamapps"], rootW ++ ["steamapps", "common", "Foo"]]⟩

/-- The game `catFsW`'s catalog contains. -/
def gameW : SteamGame := ⟨"10", "Foo", "Foo", 0, rootW, false, false, 0⟩

/-- A library-folders descriptor that references the same path twice. -/
def lfDupContent : String :=
  "\"libraryfolders\" \x7b \"0\" \x7b \"path\" \"/a\" \x7d \"1\" \x7b \"path\" \"/a\" \x7d \x7d"

/-- A catalog filesystem whose library-folders descriptor references `/a`
twice, with `/a` existing on disk. -/
def catFsDup : CatFS :=
  ⟨[(["r", "steamapps", "libraryfolders.vdf"], lfDupContent)], [["/a"]]⟩

/-- A catalog filesystem with no descriptor files at all. -/
def catFsBare : CatFS := ⟨[], [["r"]]⟩

/-- A sample well-formed document with nesting and duplicate keys. -/
def docW : Doc :=
  Doc.kv "a" "1" (Doc.sec "s" (Doc.kv "a" "x" (Doc.kv "a" "y" Doc.nil)) (Doc.kv "a" "2" Doc.nil))

/-! ## Theorems: tokenizer and parser -/

/-! ## Basic tokenizer lemmas -/

theorem splitAtQuote_eq : ∀ l a b, splitAtQuote l = some (a, b) → l = a ++ '"' :: b := by
  intro l
  induction l with
  | nil => intro a b h; simp [splitAtQuote] at h
  | cons c r ih =>
    intro a b h
    by_cases hc : c == '"'
    · simp [splitAtQuote, hc] at h
      obtain ⟨ha, hb⟩ := h
      subst ha; subst hb
      simp_all
    · simp only [splitAtQuote, hc, if_neg, Bool.false_eq_true, if_false] at h
      match hsp : splitAtQuote r with
      | some ab =>
        rw [hsp] at h
        simp at h
        obtain ⟨ha, hb⟩ := h
        have := ih ab.1 ab.2 (by rw [hsp])
        subst hb
        rw [← ha]
        simp [this]
      | none => rw [hsp] at h; simp at h

theorem splitAtQuote_length {l : List Char} {a b} (h : splitAtQuote l = some (a, b)) :
    b.length < l.length := by
  have := splitAtQuote_eq l a b h
  subst this
  simp
  omega

theorem tokenizeF_congr : ∀ f₁ f₂ l, l.length ≤ f₁ → l.length ≤ f₂ →
    tokenizeF f₁ l = tokenizeF f₂ l := by
  intro f₁
  induction f₁ with
  | zero =>
    intro f₂ l h₁ _
    have : l = [] := by
      cases l with
      | nil => rfl
      | cons c r => simp at h₁
    subst this
    cases f₂ <;> rfl
  | succ f ih =>
    intro f₂ l h₁ h₂
    cases l with
    | nil => cases f₂ <;> rfl
    | cons c r =>
      cases f₂ with
      | zero => simp at h₂
      | succ f₂' =>
        simp only [List.length_cons] at h₁ h₂
        have hr₁ : r.length ≤ f := by omega
        have hr₂ : r.length ≤ f₂' := by omega
        simp only [tokenizeF]
        by_cases hb : c == '{'
        · simp [hb, ih f₂' r hr₁ hr₂]
        · by_cases hb2 : c == '}'
          · simp [hb, hb2, ih f₂' r hr₁ hr₂]
          · by_cases hb3 : c == '"'
            · simp only [hb, hb2, hb3, Bool.false_eq_true, if_false, if_true]
              match hsp : splitAtQuote r with
              | some ab =>
                have hlen := splitAtQuote_length hsp
                simp [ih f₂' ab.2 (by omega) (by omega)]
              | none => simp [ih f₂' r hr₁ hr₂]
            · simp [hb, hb2, hb3, ih f₂' r hr₁ hr₂]

theorem splitAtQuote_append : ∀ s r, noQuote s = true →
    splitAtQuote (s ++ '"' :: r) = some (s, r) := by
  intro s
  induction s with
  | nil => intro r _; simp [splitAtQuote]
  | cons c s' ih =>
    intro r h
    simp only [noQuote, Bool.and_eq_true, Bool.not_eq_eq_eq_not, Bool.not_true] at h
    obtain ⟨hc, hs⟩ := h
    simp only [List.cons_append, splitAtQuote, hc, Bool.false_eq_true, if_false]
    simp only [List.append_eq]
    rw [ih r hs]

theorem tokenize_lbrace (r : List Char) : tokenize ('{' :: r) = Tok.lbrace :: tokenize r := by
  show tokenizeF (r.length + 1) ('{' :: r) = Tok.lbrace :: tokenize r
  simp [tokenizeF, tokenize]

theorem tokenize_rbrace (r : List Char) : tokenize ('}' :: r) = Tok.rbrace :: tokenize r := by
  show tokenizeF (r.length + 1) ('}' :: r) = Tok.rbrace :: tokenize r
  simp [tokenizeF, tokenize]

theorem tokenize_quote (s r : List Char) (h : noQuote s = true) :
    tokenize ('"' :: (s ++ '"' :: r)) = Tok.str (String.mk s) :: tokenize r := by
  show tokenizeF ((s ++ '"' :: r).length + 1) ('"' :: (s ++ '"' :: r)) = _
  simp only [tokenizeF, splitAtQuote_append s r h]
  rw [if_neg (by decide), if_neg (by decide), if_pos (by decide)]
  exact congrArg (Tok.str (String.mk s) :: ·) (tokenizeF_congr _ _ r (by simp; omega) (by omega))

theorem tokenize_doc : ∀ d tl, quoteFree d = true →
    tokenize (renderChars d ++ tl) = docToks d ++ tokenize tl := by
  intro d
  induction d with
  | nil => intro tl _; simp [renderChars, docToks]
  | kv k v rest ih =>
    intro tl h
    simp only [quoteFree, Bool.and_eq_true] at h
    obtain ⟨⟨hk, hv⟩, hrest⟩ := h
    simp only [renderChars, docToks, List.cons_append, List.append_assoc, List.cons_append]
    rw [tokenize_quote k.data _ hk]
    rw [tokenize_quote v.data _ hv]
    rw [ih tl hrest]
  | sec k sub rest ihs ihr =>
    intro tl h
    simp only [quoteFree, Bool.and_eq_true] at h
    obtain ⟨⟨hk, hsub⟩, hrest⟩ := h
    simp only [renderChars, docToks, List.cons_append, List.append_assoc, List.cons_append]
    rw [tokenize_quote k.data _ hk]
    rw [tokenize_lbrace]
    rw [ihs (('}' :: (renderChars rest ++ tl)) ) hsub]
    rw [tokenize_rbrace]
    rw [ihr tl hrest]

theorem foldl_step_doc : ∀ d ctx cur tl,
    List.foldl step ⟨ctx, cur, none⟩ (docToks d ++ tl) =
      List.foldl step ⟨ctx, dgo d cur, none⟩ tl := by
  intro d
  induction d with
  | nil => intro ctx cur tl; simp [docToks, dgo]
  | kv k v rest ih =>
    intro ctx cur tl
    simp only [docToks, dgo, List.cons_append, List.foldl_cons]
    rw [show step ⟨ctx, cur, none⟩ (Tok.str k) = ⟨ctx, cur, some k⟩ from rfl]
    rw [show step ⟨ctx, cur, some k⟩ (Tok.str v) = ⟨ctx, dictSet cur k (VDF.str v), none⟩ from rfl]
    exact ih ctx (dictSet cur k (VDF.str v)) tl
  | sec k sub rest ihs ihr =>
    intro ctx cur tl
    simp only [docToks, dgo, List.cons_append, List.foldl_cons, List.append_assoc]
    rw [show step ⟨ctx, cur, none⟩ (Tok.str k) = ⟨ctx, cur, some k⟩ from rfl]
    rw [show step ⟨ctx, cur, some k⟩ Tok.lbrace = ⟨(cur, k) :: ctx, [], none⟩ from rfl]
    rw [List.foldl_append]
    rw [show (docToks sub).foldl step ⟨(cur, k) :: ctx, [], none⟩ =
      List.foldl step ⟨(cur, k) :: ctx, [], none⟩ (docToks sub ++ []) from by simp]
    rw [ihs ((cur, k) :: ctx) [] []]
    simp only [List.foldl_nil, List.foldl_cons]
    rw [show step ⟨(cur, k) :: ctx, dgo sub [], none⟩ Tok.rbrace =
      ⟨ctx, dictSet cur k (VDF.obj (dgo sub [])), none⟩ from rfl]
    exact ihr ctx (dictSet cur k (VDF.obj (dgo sub []))) tl

theorem strLeB_total : ∀ a b, strLeB a b = true ∨ strLeB b a = true := by
  intro a
  induction a with
  | nil => intro b; left; rfl
  | cons x xs ih =>
    intro b
    cases b with
    | nil => right; rfl
    | cons y ys =>
      simp only [strLeB]
      rcases Nat.lt_trichotomy x.toNat y.toNat with h | h | h
      · left; simp [h]
      · have h1 : ¬ x.toNat < y.toNat := by omega
        have h2 : ¬ y.toNat < x.toNat := by omega
        simp only [h1, h2, if_false]
        exact ih ys
      · right; simp [h]

theorem strLeB_trans : ∀ a b c, strLeB a b = true → strLeB b c = true → strLeB a c = true := by
  intro a
  induction a with
  | nil => intro b c _ _; rfl
  | cons x xs ih =>
    intro b c hab hbc
    cases b with
    | nil => simp [strLeB] at hab
    | cons y ys =>
      cases c with
      | nil => simp [strLeB] at hbc
      | cons z zs =>
        simp only [strLeB] at hab hbc ⊢
        rcases Nat.lt_trichotomy x.toNat y.toNat with h1 | h1 | h1
        · rcases Nat.lt_trichotomy y.toNat z.toNat with h2 | h2 | h2
          · simp [show x.toNat < z.toNat by omega]
          · simp [show x.toNat < z.toNat by omega]
          · rw [if_neg (by omega), if_pos (by omega)] at hbc
            simp at hbc
        · rcases Nat.lt_trichotomy y.toNat z.toNat with h2 | h2 | h2
          · simp [show x.toNat < z.toNat by omega]
          · rw [if_neg (by omega), if_neg (by omega)] at hab
            rw [if_neg (by omega), if_neg (by omega)] at hbc
            rw [if_neg (by omega : ¬ x.toNat < z.toNat), if_neg (by omega : ¬ z.toNat < x.toNat)]
            exact ih ys zs hab hbc
          · rw [if_neg (by omega), if_pos (by omega)] at hbc
            simp at hbc
        · rw [if_neg (by omega), if_pos (by omega)] at hab
          simp at hab

theorem nameLe_total : ∀ g₁ g₂, nameLe g₁ g₂ = true ∨ nameLe g₂ g₁ = true := by
  intro g₁ g₂; exact strLeB_total _ _

theorem nameLe_trans : ∀ g₁ g₂ g₃,
    nameLe g₁ g₂ = true → nameLe g₂ g₃ = true → nameLe g₁ g₃ = true := by
  intro g₁ g₂ g₃; exact strLeB_trans _ _ _

theorem mem_insSorted (le : α → α → Bool) (x a : α) :
    ∀ l, a ∈ insSorted le x l ↔ a = x ∨ a ∈ l := by
  intro l
  induction l with
  | nil => simp [insSorted]
  | cons y ys ih =>
    simp only [insSorted]
    by_cases h : le y x = true
    · rw [if_pos h]
      simp only [List.mem_cons, ih]
      tauto
    · rw [if_neg h]
      simp only [List.mem_cons]

theorem mem_pySorted (le : α → α → Bool) (a : α) (l : List α) :
    a ∈ pySorted le l ↔ a ∈ l := by
  have key : ∀ (l : List α) (acc : List α),
      a ∈ l.foldl (fun acc x => insSorted le x acc) acc ↔ a ∈ acc ∨ a ∈ l := by
    intro l
    induction l with
    | nil => intro acc; simp
    | cons x xs ih =>
      intro acc
      simp only [List.foldl_cons, ih, mem_insSorted, List.mem_cons]
      tauto
  simpa using key l []

theorem pairwise_insSorted (le : α → α → Bool)
    (htot : ∀ a b, le a b = true ∨ le b a = true)
    (htrans : ∀ a b c, le a b = true → le b c = true → le a c = true)
    (x : α) : ∀ l, l.Pairwise (fun a b => le a b = true) →
      (insSorted le x l).Pairwise (fun a b => le a b = true) := by
  intro l
  induction l with
  | nil => intro _; simp [insSorted]
  | cons y ys ih =>
    intro hp
    rw [List.pairwise_cons] at hp
    obtain ⟨hy, hys⟩ := hp
    simp only [insSorted]
    by_cases h : le y x = true
    · rw [if_pos h]
      rw [List.pairwise_cons]
      constructor
      · intro a ha
        rw [mem_insSorted] at ha
        rcases ha with rfl | ha
        · exact h
        · exact hy a ha
      · exact ih hys
    · rw [if_neg h]
      have hxy : le x y = true := by
        rcases htot x y with h' | h'
        · exact h'
        · exact absurd h' h
      rw [List.pairwise_cons]
      constructor
      · intro a ha
        rcases List.mem_cons.mp ha with rfl | ha
        · exact hxy
        · exact htrans x y a hxy (hy a ha)
      · rw [List.pairwise_cons]
        exact ⟨hy, hys⟩

theorem pairwise_pySorted (le : α → α → Bool)
    (htot : ∀ a b, le a b = true ∨ le b a = true)
    (htrans : ∀ a b c, le a b = true → le b c = true → le a c = true)
    (l : List α) : (pySorted le l).Pairwise (fun a b => le a b = true) := by
  have key : ∀ (l : List α) (acc : List α),
      acc.Pairwise (fun a b => le a b = true) →
      (l.foldl (fun acc x => insSorted le x acc) acc).Pairwise (fun a b => le a b = true) := by
    intro l
    induction l with
    | nil => intro acc h; simpa using h
    | cons x xs ih =>
      intro acc h
      simp only [List.foldl_cons]
      exact ih _ (pairwise_insSorted le htot htrans x acc h)
  exact key l [] (by simp)

/-! ## Theorems: filter bookkeeping for the deletion engine -/

theorem any_filter_of (l : List α) (c R : α → Bool) (h : ∀ x ∈ l, c x = true → R x = true) :
    (l.filter R).any c = l.any c := by
  induction l with
  | nil => rfl
  | cons x xs ih =>
    have ih' := ih (fun y hy => h y (List.mem_cons_of_mem x hy))
    by_cases hR : R x = true
    · simp only [List.filter_cons, hR, if_pos, List.any_cons, ih']
    · have hc : c x = false := by
        cases hcx : c x
        · rfl
        · exact absurd (h x (List.mem_cons_self x xs) hcx) hR
      simp only [List.filter_cons, hR, Bool.false_eq_true, if_false, List.any_cons, hc,
        Bool.false_or, ih']

theorem find_filter_of (l : List α) (c R : α → Bool) (h : ∀ x ∈ l, c x = true → R x = true) :
    (l.filter R).find? c = l.find? c := by
  induction l with
  | nil => rfl
  | cons x xs ih =>
    have ih' := ih (fun y hy => h y (List.mem_cons_of_mem x hy))
    by_cases hR : R x = true
    · by_cases hc : c x = true
      · simp only [List.filter_cons, hR, if_pos, List.find?_cons, hc]
      · have hcf : c x = false := by simpa using hc
        simp only [List.filter_cons, hR, if_pos, List.find?_cons, hcf, ih']
    · have hc : c x = false := by
        cases hcx : c x
        · rfl
        · exact absurd (h x (List.mem_cons_self x xs) hcx) hR
      simp only [List.filter_cons, hR, Bool.false_eq_true, if_false, ih']
      rw [List.find?_cons, hc]

theorem filter_filter_of (l : List α) (c R : α → Bool) (h : ∀ x ∈ l, c x = true → R x = true) :
    (l.filter R).filter c = l.filter c := by
  induction l with
  | nil => rfl
  | cons x xs ih =>
    have ih' := ih (fun y hy => h y (List.mem_cons_of_mem x hy))
    by_cases hR : R x = true
    · simp only [List.filter_cons, hR, if_pos, ih']
    · have hc : c x = false := by
        cases hcx : c x
        · rfl
        · exact absurd (h x (List.mem_cons_self x xs) hcx) hR
      simp only [List.filter_cons, hR, Bool.false_eq_true, if_false, hc, ih']

/-! ## Theorems: the `Agrees` relation -/

theorem agrees_refl (fs : FS) (P : List FPath) : Agrees fs fs P := by
  refine ⟨rfl, rfl, fun _ => true, fun _ => true, ?_, ?_, ?_, ?_⟩
  · simp
  · simp
  · intro x hx; simp at hx
  · intro d hd; simp at hd

theorem agrees_mono {fs fs₂ : FS} {P Q : List FPath} (h : Agrees fs fs₂ P)
    (hPQ : ∀ p ∈ P, p ∈ Q) : Agrees fs fs₂ Q := by
  obtain ⟨h1, h2, Rf, Rd, hf, hd, hRf, hRd⟩ := h
  refine ⟨h1, h2, Rf, Rd, hf, hd, ?_, ?_⟩
  · intro x hx
    obtain ⟨p, hp, hpre⟩ := hRf x hx
    exact ⟨p, hPQ p hp, hpre⟩
  · intro d hdd
    obtain ⟨p, hp, hpre⟩ := hRd d hdd
    exact ⟨p, hPQ p hp, hpre⟩

theorem agrees_trans {fs₁ fs₂ fs₃ : FS} {P Q : List FPath}
    (h : Agrees fs₁ fs₂ P) (h' : Agrees fs₂ fs₃ Q) : Agrees fs₁ fs₃ (P ++ Q) := by
  obtain ⟨h1, h2, Rf, Rd, hf, hd, hRf, hRd⟩ := h
  obtain ⟨h1', h2', Rf', Rd', hf', hd', hRf', hRd'⟩ := h'
  refine ⟨h1'.trans h1, h2'.trans h2, fun x => Rf' x && Rf x, fun d => Rd' d && Rd d,
    ?_, ?_, ?_, ?_⟩
  · rw [hf', hf, List.filter_filter]
  · rw [hd', hd, List.filter_filter]
  · intro x hx
    rcases Bool.and_eq_false_iff.mp hx with hx' | hx'
    · obtain ⟨p, hp, hpre⟩ := hRf' x hx'
      exact ⟨p, List.mem_append_right _ hp, hpre⟩
    · obtain ⟨p, hp, hpre⟩ := hRf x hx'
      exact ⟨p, List.mem_append_left _ hp, hpre⟩
  · intro d hdd
    rcases Bool.and_eq_false_iff.mp hdd with hd'' | hd''
    · obtain ⟨p, hp, hpre⟩ := hRd' d hd''
      exact ⟨p, List.mem_append_right _ hp, hpre⟩
    · obtain ⟨p, hp, hpre⟩ := hRd d hd''
      exact ⟨p, List.mem_append_left _ hp, hpre⟩

theorem agrees_removeTree (fs : FS) (p : FPath) : Agrees fs (fs.removeTree p) [p] := by
  refine ⟨rfl, rfl, fun e => !(p.isPrefixOf e.1), fun d => !(p.isPrefixOf d),
    rfl, rfl, ?_, ?_⟩
  · intro x hx
    simp at hx
    exact ⟨p, List.mem_singleton_self p, List.isPrefixOf_iff_prefix.mpr hx⟩
  · intro d hd
    simp at hd
    exact ⟨p, List.mem_singleton_self p, List.isPrefixOf_iff_prefix.mpr hd⟩

theorem agrees_unlink (fs : FS) (p : FPath) : Agrees fs (fs.unlink p) [p] := by
  refine ⟨rfl, rfl, fun e => !(e.1 == p), fun _ => true, rfl, by simp [FS.unlink], ?_, ?_⟩
  · intro x hx
    simp at hx
    refine ⟨p, List.mem_singleton_self p, ?_⟩
    rw [hx, List.isPrefixOf_iff_prefix]
  · intro d hd; simp at hd

theorem sepB_not_left {p q : FPath} (h : sepB p q = true) : p.isPrefixOf q = false := by
  simp only [sepB, Bool.and_eq_true, Bool.not_eq_eq_eq_not, Bool.not_true] at h
  exact h.1

theorem sepB_not_right {p q : FPath} (h : sepB p q = true) : q.isPrefixOf p = false := by
  simp only [sepB, Bool.and_eq_true, Bool.not_eq_eq_eq_not, Bool.not_true] at h
  exact h.2

theorem agrees_isFileB {fs fs₂ : FS} {P : List FPath} (h : Agrees fs fs₂ P)
    {q : FPath} (hq : ∀ p ∈ P, sepB p q = true) : fs₂.isFileB q = fs.isFileB q := by
  obtain ⟨_, _, Rf, _, hf, _, hRf, _⟩ := h
  rw [FS.isFileB, FS.isFileB, hf]
  apply any_filter_of
  intro x _ hx
  cases hRx : Rf x
  · obtain ⟨p, hp, hpre⟩ := hRf x hRx
    rw [beq_iff_eq] at hx
    rw [hx] at hpre
    rw [sepB_not_left (hq p hp)] at hpre
    exact absurd hpre (by simp)
  · rfl

theorem agrees_dirsAny {fs fs₂ : FS} {P : List FPath} (h : Agrees fs fs₂ P)
    {q : FPath} (hq : ∀ p ∈ P, sepB p q = true) :
    fs₂.dirs.any (fun d => d == q) = fs.dirs.any (fun d => d == q) := by
  obtain ⟨_, _, _, Rd, _, hd, _, hRd⟩ := h
  rw [hd]
  apply any_filter_of
  intro x _ hx
  cases hRx : Rd x
  · obtain ⟨p, hp, hpre⟩ := hRd x hRx
    rw [beq_iff_eq] at hx
    rw [hx] at hpre
    rw [sepB_not_left (hq p hp)] at hpre
    exact absurd hpre (by simp)
  · rfl

theorem agrees_existsB {fs fs₂ : FS} {P : List FPath} (h : Agrees fs fs₂ P)
    {q : FPath} (hq : ∀ p ∈ P, sepB p q = true) : fs₂.existsB q = fs.existsB q := by
  rw [FS.existsB, FS.existsB, agrees_isFileB h hq, agrees_dirsAny h hq]

theorem agrees_fileSize {fs fs₂ : FS} {P : List FPath} (h : Agrees fs fs₂ P)
    {q : FPath} (hq : ∀ p ∈ P, sepB p q = true) : fs₂.fileSize q = fs.fileSize q := by
  obtain ⟨_, _, Rf, _, hf, _, hRf, _⟩ := h
  rw [FS.fileSize, FS.fileSize, hf]
  rw [find_filter_of]
  intro x _ hx
  cases hRx : Rf x
  · obtain ⟨p, hp, hpre⟩ := hRf x hRx
    rw [beq_iff_eq] at hx
    rw [hx] at hpre
    rw [sepB_not_left (hq p hp)] at hpre
    exact absurd hpre (by simp)
  · rfl

theorem agrees_dirSize {fs fs₂ : FS} {P : List FPath} (h : Agrees fs fs₂ P)
    {q : FPath} (hq : ∀ p ∈ P, sepB p q = true) : get_dir_size fs₂ q = get_dir_size fs q := by
  rw [get_dir_size, get_dir_size, agrees_existsB h hq]
  obtain ⟨_, _, Rf, _, hf, _, hRf, _⟩ := h
  rw [hf]
  rw [filter_filter_of]
  intro x _ hx
  simp only [Bool.and_eq_true, decide_eq_true_eq] at hx
  obtain ⟨hpre, hlen⟩ := hx
  cases hRx : Rf x
  · obtain ⟨p, hp, hppre⟩ := hRf x hRx
    rw [List.isPrefixOf_iff_prefix] at hpre hppre
    rcases List.prefix_or_prefix_of_prefix hppre hpre with hc | hc
    · have := sepB_not_left (hq p hp)
      rw [← List.isPrefixOf_iff_prefix] at hc
      rw [this] at hc
      exact absurd hc (by simp)
    · have := sepB_not_right (hq p hp)
      rw [← List.isPrefixOf_iff_prefix] at hc
      rw [this] at hc
      exact absurd hc (by simp)
  · rfl

theorem agrees_measure {fs fs₂ : FS} {P : List FPath} (h : Agrees fs fs₂ P)
    {q : FPath} (hq : ∀ p ∈ P, sepB p q = true) : measurePath fs₂ q = measurePath fs q := by
  rw [measurePath, measurePath, agrees_isFileB h hq, h.2.1, agrees_fileSize h hq,
    agrees_dirSize h hq]

/-! ## Theorems: the deletion loop -/

theorem delLoop_dry_fs : ∀ (l : List (FPath × String)) (fs : FS) (acc : Nat),
    (delLoop true fs l acc).fs = fs := by
  intro l
  induction l with
  | nil => intro fs acc; rfl
  | cons pd rest ih =>
    intro fs acc
    obtain ⟨p, d⟩ := pd
    simp only [delLoop]
    by_cases hex : fs.existsB p = true
    · rw [if_pos hex]
      match hm : measurePath fs p with
      | Except.error e => rfl
      | Except.ok size =>
        simp only [if_pos rfl]
        exact ih fs (acc + size)
    · rw [if_neg hex]
      exact ih fs acc

theorem removePath_ok {fs fs' : FS} {p : FPath} (h : removePath fs p = Except.ok fs') :
    Agrees fs fs' [p] := by
  rw [removePath] at h
  match he : errAt fs.rmErrs p with
  | some e => rw [he] at h; simp at h
  | none =>
    rw [he] at h
    simp only [Except.ok.injEq] at h
    subst h
    by_cases hf : fs.isFileB p = true
    · rw [if_pos hf]; exact agrees_unlink fs p
    · rw [if_neg hf]; exact agrees_removeTree fs p

theorem delLoop_region (dry : Bool) : ∀ (l : List (FPath × String)) (fs : FS) (acc : Nat),
    Agrees fs (delLoop dry fs l acc).fs (planPaths l) := by
  intro l
  induction l with
  | nil => intro fs acc; exact agrees_refl fs _
  | cons pd rest ih =>
    intro fs acc
    obtain ⟨p, d⟩ := pd
    have hsub : ∀ q ∈ planPaths rest, q ∈ planPaths ((p, d) :: rest) := by
      intro q hq
      simp only [planPaths, List.map_cons, List.mem_cons]
      right
      exact hq
    simp only [delLoop]
    by_cases hex : fs.existsB p = true
    · rw [if_pos hex]
      match hm : measurePath fs p with
      | Except.error e => exact agrees_refl fs _
      | Except.ok size =>
        cases dry with
        | true =>
          simp only [if_pos rfl]
          exact agrees_mono (ih fs (acc + size)) hsub
        | false =>
          simp only [Bool.false_eq_true, if_false]
          match hr : removePath fs p with
          | Except.error e => exact agrees_refl fs _
          | Except.ok fs' =>
            have h1 : Agrees fs fs' [p] := removePath_ok hr
            have h2 := ih fs' (acc + size)
            have := agrees_trans h1 h2
            apply agrees_mono this
            intro q hq
            simp only [List.singleton_append, List.mem_cons] at hq
            simp only [planPaths, List.map_cons, List.mem_cons]
            exact hq
    · rw [if_neg hex]
      exact agrees_mono (ih fs acc) hsub

theorem delLoop_append_of_err (dry : Bool) :
    ∀ (l₁ : List (FPath × String)) (fs : FS) (acc : Nat),
    (delLoop dry fs l₁ acc).err.isSome = true →
    ∀ l₂, delLoop dry fs (l₁ ++ l₂) acc = delLoop dry fs l₁ acc := by
  intro l₁
  induction l₁ with
  | nil => intro fs acc h; simp [delLoop] at h
  | cons pd rest ih =>
    intro fs acc h l₂
    obtain ⟨p, d⟩ := pd
    simp only [delLoop, List.cons_append] at h ⊢
    by_cases hex : fs.existsB p = true
    · rw [if_pos hex] at h
      rw [if_pos hex, if_pos hex]
      match hm : measurePath fs p with
      | Except.error e => rfl
      | Except.ok size =>
        rw [hm] at h
        cases dry with
        | true =>
          simp only [eq_self_iff_true, if_true] at h ⊢
          exact ih fs (acc + size) h l₂
        | false =>
          simp only [Bool.false_eq_true, if_false] at h ⊢
          match hr : removePath fs p with
          | Except.error e => rfl
          | Except.ok fs' =>
            rw [hr] at h
            exact ih fs' (acc + size) h l₂
    · rw [if_neg hex] at h
      rw [if_neg hex, if_neg hex]
      exact ih fs acc h l₂

theorem get_game_paths_mem_cand (fs : FS) (g : SteamGame) :
    ∀ q ∈ planPaths (get_game_paths fs g), q ∈ candPaths g := by
  intro q hq
  simp only [planPaths, get_game_paths, List.map_append, List.mem_append, List.map_cons,
    List.map_nil, List.mem_cons, List.not_mem_nil] at hq
  simp only [candPaths, List.mem_cons, List.not_mem_nil]
  rcases hq with (hq | hq) | hq
  · rcases hq with hq | hq
    · tauto
    · by_cases hc : fs.existsB g.game_path = true
      · rw [if_pos hc] at hq
        simp at hq
        tauto
      · rw [if_neg hc] at hq
        simp at hq
  · by_cases hc : (g.has_compatdata && fs.existsB g.compatdata_path) = true
    · rw [if_pos hc] at hq
      simp at hq
      tauto
    · rw [if_neg hc] at hq
      simp at hq
  · by_cases hc : (g.has_shadercache && fs.existsB g.shadercache_path) = true
    · rw [if_pos hc] at hq
      simp at hq
      tauto
    · rw [if_neg hc] at hq
      simp at hq

theorem planPaths_sublist (fs : FS) (g : SteamGame) :
    (planPaths (get_game_paths fs g)).Sublist (candPaths g) := by
  simp only [planPaths, get_game_paths, candPaths, List.map_append]
  split_ifs <;>
    simp only [List.map_cons, List.map_nil, List.nil_append, List.append_nil,
      List.cons_append, List.append_assoc] <;>
    repeat
      first
      | exact List.Sublist.refl _
      | exact List.nil_sublist _
      | apply List.Sublist.cons₂
      | apply List.Sublist.cons

theorem get_game_paths_agree {fs fs₂ : FS} {P : List FPath} (h : Agrees fs fs₂ P)
    (g : SteamGame) (hsep : ∀ q ∈ candPaths g, ∀ p ∈ P, sepB p q = true) :
    get_game_paths fs₂ g = get_game_paths fs g := by
  have h1 : fs₂.existsB g.game_path = fs.existsB g.game_path :=
    agrees_existsB h (fun p hp => hsep g.game_path (by simp [candPaths]) p hp)
  have h2 : fs₂.existsB g.compatdata_path = fs.existsB g.compatdata_path :=
    agrees_existsB h (fun p hp => hsep g.compatdata_path (by simp [candPaths]) p hp)
  have h3 : fs₂.existsB g.shadercache_path = fs.existsB g.shadercache_path :=
    agrees_existsB h (fun p hp => hsep g.shadercache_path (by simp [candPaths]) p hp)
  rw [get_game_paths, get_game_paths, h1, h2, h3]

theorem uninstall_game_fst (fs : FS) (g : SteamGame) (dry : Bool) :
    (uninstall_game fs g dry).1 = (delLoop dry fs (get_game_paths fs g) 0).fs := by
  rw [uninstall_game]
  match h : (delLoop dry fs (get_game_paths fs g) 0).err with
  | none => rfl
  | some e => rfl

theorem uninstall_game_bytes (fs : FS) (g : SteamGame) (dry : Bool) :
    (uninstall_game fs g dry).2.bytes_freed = (delLoop dry fs (get_game_paths fs g) 0).bytes := by
  rw [uninstall_game]
  match h : (delLoop dry fs (get_game_paths fs g) 0).err with
  | none => rfl
  | some e => rfl

theorem uninstall_game_game (fs : FS) (g : SteamGame) (dry : Bool) :
    (uninstall_game fs g dry).2.game = g := by
  rw [uninstall_game]
  match h : (delLoop dry fs (get_game_paths fs g) 0).err with
  | none => rfl
  | some e => rfl

theorem uninstall_game_dry_fst (fs : FS) (g : SteamGame) :
    (uninstall_game fs g true).1 = fs := by
  rw [uninstall_game_fst, delLoop_dry_fs]

theorem delLoop_dry_live :
    ∀ (l : List (FPath × String)) (fs fs₂ : FS) (acc : Nat) (P : List FPath),
    Agrees fs fs₂ P →
    fs.rmErrs = [] →
    (∀ q ∈ planPaths l, ∀ p ∈ P, sepB p q = true) →
    (planPaths l).Pairwise (fun p q => sepB p q = true) →
    (delLoop false fs₂ l acc).bytes = (delLoop true fs l acc).bytes ∧
    (delLoop false fs₂ l acc).err = (delLoop true fs l acc).err ∧
    Agrees fs (delLoop false fs₂ l acc).fs (P ++ planPaths l) := by
  intro l
  induction l with
  | nil =>
    intro fs fs₂ acc P h hrm _ _
    refine ⟨rfl, rfl, ?_⟩
    show Agrees fs fs₂ (P ++ [])
    simpa using h
  | cons qd rest ih =>
    intro fs fs₂ acc P h hrm hq hpw
    obtain ⟨q, d⟩ := qd
    have hsepP : ∀ p ∈ P, sepB p q = true := by
      intro p hp
      exact hq q (by simp [planPaths]) p hp
    have hqrest : ∀ r ∈ planPaths rest, ∀ p ∈ P, sepB p r = true := by
      intro r hr p hp
      exact hq r (by simp only [planPaths, List.map_cons, List.mem_cons]; right; exact hr) p hp
    have hpw' : (q :: planPaths rest).Pairwise (fun p r => sepB p r = true) := hpw
    have hpwq : ∀ r ∈ planPaths rest, sepB q r = true := (List.pairwise_cons.mp hpw').1
    have hpwrest : (planPaths rest).Pairwise (fun p q => sepB p q = true) :=
      (List.pairwise_cons.mp hpw').2
    have hmono : ∀ x ∈ P ++ planPaths rest, x ∈ P ++ planPaths ((q, d) :: rest) := by
      intro x hx
      simp only [List.mem_append] at hx ⊢
      rcases hx with hx | hx
      · left; exact hx
      · right
        simp only [planPaths, List.map_cons, List.mem_cons]
        right
        exact hx
    have hex2 : fs₂.existsB q = fs.existsB q := agrees_existsB h hsepP
    have hm2 : measurePath fs₂ q = measurePath fs q := agrees_measure h hsepP
    simp only [delLoop, hex2, hm2]
    by_cases hex : fs.existsB q = true
    · rw [if_pos hex, if_pos hex]
      match hm : measurePath fs q with
      | Except.error e =>
        refine ⟨rfl, rfl, ?_⟩
        exact agrees_mono h (fun x hx => List.mem_append_left _ hx)
      | Except.ok size =>
        simp only [eq_self_iff_true, if_true, Bool.false_eq_true, if_false]
        have hrm2 : errAt fs₂.rmErrs q = none := by
          rw [h.1, hrm]
          rfl
        simp only [removePath, hrm2]
        have hAg' : Agrees fs₂
            (if fs₂.isFileB q = true then fs₂.unlink q else fs₂.removeTree q) [q] := by
          by_cases hf : fs₂.isFileB q = true
          · rw [if_pos hf]; exact agrees_unlink fs₂ q
          · rw [if_neg hf]; exact agrees_removeTree fs₂ q
        have hAgq : Agrees fs
            (if fs₂.isFileB q = true then fs₂.unlink q else fs₂.removeTree q) (P ++ [q]) :=
          agrees_trans h hAg'
        have hsep' : ∀ r ∈ planPaths rest, ∀ p ∈ P ++ [q], sepB p r = true := by
          intro r hr p hp
          rcases List.mem_append.mp hp with hp | hp
          · exact hqrest r hr p hp
          · rw [List.mem_singleton] at hp
            subst hp
            exact hpwq r hr
        obtain ⟨hb, he, hA⟩ := ih fs
          (if fs₂.isFileB q = true then fs₂.unlink q else fs₂.removeTree q)
          (acc + size) (P ++ [q]) hAgq hrm hsep' hpwrest
        refine ⟨hb, he, ?_⟩
        apply agrees_mono hA
        intro x hx
        simp only [List.mem_append, List.mem_singleton] at hx ⊢
        rcases hx with (hx | hx) | hx
        · left; exact hx
        · right
          simp only [planPaths, List.map_cons, List.mem_cons]
          left
          exact hx
        · right
          simp only [planPaths, List.map_cons, List.mem_cons]
          right
          exact hx
    · rw [if_neg hex, if_neg hex]
      obtain ⟨hb, he, hA⟩ := ih fs fs₂ acc P h hrm hqrest hpwrest
      exact ⟨hb, he, agrees_mono hA hmono⟩

theorem runBatch_dry_fst : ∀ (games : List SteamGame) (fs : FS),
    (runBatch true fs games).1 = fs := by
  intro games
  induction games with
  | nil => intro fs; rfl
  | cons g gs ih =>
    intro fs
    simp only [runBatch]
    rw [uninstall_game_dry_fst fs g]
    exact ih fs

theorem runBatch_dry_live :
    ∀ (games : List SteamGame) (fs fs₂ : FS) (P : List FPath),
    Agrees fs fs₂ P →
    fs.rmErrs = [] →
    (∀ g ∈ games, ∀ q ∈ candPaths g, ∀ p ∈ P, sepB p q = true) →
    games.Pairwise (fun g₁ g₂ => ∀ p ∈ candPaths g₁, ∀ q ∈ candPaths g₂, sepB p q = true) →
    (∀ g ∈ games, (candPaths g).Pairwise (fun p q => sepB p q = true)) →
    (runBatch false fs₂ games).2.map (fun r => r.bytes_freed) =
      (runBatch true fs games).2.map (fun r => r.bytes_freed) := by
  intro games
  induction games with
  | nil => intro fs fs₂ P _ _ _ _ _; rfl
  | cons g gs ih =>
    intro fs fs₂ P h hrm hcross hpw hintra
    have hsepg : ∀ q ∈ candPaths g, ∀ p ∈ P, sepB p q = true := by
      intro q hq p hp
      exact hcross g (List.mem_cons_self g gs) q hq p hp
    have hplan : get_game_paths fs₂ g = get_game_paths fs g := get_game_paths_agree h g hsepg
    have hplansep : ∀ q ∈ planPaths (get_game_paths fs g), ∀ p ∈ P, sepB p q = true := by
      intro q hq p hp
      exact hsepg q (get_game_paths_mem_cand fs g q hq) p hp
    have hplanpw : (planPaths (get_game_paths fs g)).Pairwise (fun p q => sepB p q = true) :=
      List.Pairwise.sublist (planPaths_sublist fs g) (hintra g (List.mem_cons_self g gs))
    obtain ⟨hb, he, hA⟩ := delLoop_dry_live (get_game_paths fs g) fs fs₂ 0 P h hrm
      hplansep hplanpw
    simp only [runBatch, List.map_cons]
    rw [uninstall_game_bytes, uninstall_game_bytes, hplan, hb]
    rw [uninstall_game_dry_fst fs g]
    congr 1
    rw [uninstall_game_fst, hplan]
    have hcross' : ∀ g' ∈ gs, ∀ q ∈ candPaths g', ∀ p ∈ P ++ planPaths (get_game_paths fs g),
        sepB p q = true := by
      intro g' hg' q hq p hp
      rcases List.mem_append.mp hp with hp | hp
      · exact hcross g' (List.mem_cons_of_mem g hg') q hq p hp
      · have hpc : p ∈ candPaths g := get_game_paths_mem_cand fs g p hp
        exact (List.pairwise_cons.mp hpw).1 g' hg' p hpc q hq
    exact ih fs (delLoop false fs₂ (get_game_paths fs g) 0).fs
      (P ++ planPaths (get_game_paths fs g)) hA hrm hcross'
      (List.pairwise_cons.mp hpw).2
      (fun g' hg' => hintra g' (List.mem_cons_of_mem g hg'))

theorem agrees_removed {fs fs₂ : FS} {P : List FPath} (h : Agrees fs fs₂ P)
    {q : FPath} (h1 : fs.existsB q = true) (h2 : fs₂.existsB q = false) :
    ∃ p ∈ P, p.isPrefixOf q = true := by
  obtain ⟨_, _, Rf, Rd, hf, hd, hRf, hRd⟩ := h
  rw [FS.existsB, Bool.or_eq_true] at h1
  rw [FS.existsB, Bool.or_eq_false_iff] at h2
  obtain ⟨h2f, h2d⟩ := h2
  rcases h1 with h1 | h1
  · rw [FS.isFileB, List.any_eq_true] at h1
    obtain ⟨x, hx, hxq⟩ := h1
    cases hRx : Rf x with
    | false =>
      obtain ⟨p, hp, hpre⟩ := hRf x hRx
      rw [beq_iff_eq] at hxq
      rw [hxq] at hpre
      exact ⟨p, hp, hpre⟩
    | true =>
      rw [FS.isFileB, hf] at h2f
      have hmem : x ∈ fs.files.filter Rf := List.mem_filter.mpr ⟨hx, hRx⟩
      have hcontra : (fs.files.filter Rf).any (fun e => e.1 == q) = true :=
        List.any_eq_true.mpr ⟨x, hmem, hxq⟩
      rw [hcontra] at h2f
      exact absurd h2f (by simp)
  · rw [List.any_eq_true] at h1
    obtain ⟨x, hx, hxq⟩ := h1
    cases hRx : Rd x with
    | false =>
      obtain ⟨p, hp, hpre⟩ := hRd x hRx
      rw [beq_iff_eq] at hxq
      rw [hxq] at hpre
      exact ⟨p, hp, hpre⟩
    | true =>
      rw [hd] at h2d
      have hmem : x ∈ fs.dirs.filter Rd := List.mem_filter.mpr ⟨hx, hRx⟩
      have hcontra : (fs.dirs.filter Rd).any (fun d => d == q) = true :=
        List.any_eq_true.mpr ⟨x, hmem, hxq⟩
      rw [hcontra] at h2d
      exact absurd h2d (by simp)

theorem runBatch_games (dry : Bool) : ∀ (games : List SteamGame) (fs : FS),
    (runBatch dry fs games).2.map (fun r => r.game) = games := by
  intro games
  induction games with
  | nil => intro fs; rfl
  | cons g gs ih =>
    intro fs
    simp only [runBatch, List.map_cons]
    rw [uninstall_game_game, ih]

/-! ## Theorems: the catalog builder -/

theorem collectLibs_exists (fs : CatFS) :
    ∀ (entries : List (String × VDF)) (ls : List FPath),
    collectLibs fs entries = some ls → ∀ p ∈ ls, fs.existsB p = true := by
  intro entries
  induction entries with
  | nil =>
    intro ls h p hp
    simp only [collectLibs, Option.some.injEq] at h
    subst h
    simp at hp
  | cons e rest ih =>
    intro ls h p hp
    match e with
    | (k, VDF.str s) =>
      rw [collectLibs] at h
      exact ih ls h p hp
    | (k, VDF.obj sub) =>
      rw [collectLibs] at h
      match hlk : vdfLookup sub "path" with
      | none =>
        rw [hlk] at h
        exact ih ls h p hp
      | some (VDF.obj o) =>
        rw [hlk] at h
        simp at h
      | some (VDF.str s) =>
        rw [hlk] at h
        have h' : (collectLibs fs rest).map
            (fun ls => if fs.existsB (pathOf s) = true then pathOf s :: ls else ls) =
              some ls := h
        match hc : collectLibs fs rest with
        | none => rw [hc] at h'; simp at h'
        | some ls' =>
          rw [hc, Option.map_some'] at h'
          have h'' := Option.some.inj h'
          subst h''
          by_cases hex : fs.existsB (pathOf s) = true
          · rw [if_pos hex] at hp
            rcases List.mem_cons.mp hp with rfl | hp
            · exact hex
            · exact ih ls' hc p hp
          · rw [if_neg hex] at hp
            exact ih ls' hc p hp

theorem mem_get_installed (fs : CatFS) (lib : FPath) (pt : List (String × Int))
    (g : SteamGame) (hg : g ∈ get_installed_games fs lib pt) :
    fs.existsB g.game_path = true ∧
    hasSubstrS g.name "Runtime" = false ∧ hasSubstrS g.name "Proton" = false := by
  rw [get_installed_games] at hg
  by_cases hs : fs.existsB (lib ++ ["steamapps"]) = true
  · rw [if_pos hs] at hg
    rw [mem_pySorted] at hg
    obtain ⟨mc, _, hpm⟩ := List.mem_filterMap.mp hg
    rw [processManifest] at hpm
    repeat' split at hpm
    all_goals try exact Option.noConfusion hpm
    rename_i hruntime hpayload
    have hpm' := Option.some.inj hpm
    subst hpm'
    simp only [Bool.or_eq_true, not_or, Bool.not_eq_true] at hruntime
    exact ⟨hpayload, hruntime.1, hruntime.2⟩
  · rw [if_neg hs] at hg
    simp at hg

/-! ## The claims -/

/-- C1: for every package, `uninstall_game` with `dry_run = false` removes
only filesystem entries at or below paths of the plan returned by
`get_game_paths`, and the plan is exactly, in order: the manifest (always),
the payload directory if it exists, the compatdata directory if flagged and
existing, the shadercache directory if flagged and existing — all four at
paths derived solely from the appid, the install directory name and the
library root; a path separated from every planned path is untouched. -/
theorem uninstall_plan_exact_and_frame (fs : FS) (g : SteamGame) :
    get_game_paths fs g =
      [(g.manifest_path, "manifest")]
      ++ (if fs.existsB g.game_path then [(g.game_path, "game files")] else [])
      ++ (if g.has_compatdata && fs.existsB g.compatdata_path then
            [(g.compatdata_path, "Proton data")] else [])
      ++ (if g.has_shadercache && fs.existsB g.shadercache_path then
            [(g.shadercache_path, "shader cache")] else []) ∧
    g.manifest_path = g.library_path ++ ["steamapps", "appmanifest_" ++ g.appid ++ ".acf"] ∧
    g.game_path = g.library_path ++ ["steamapps", "common", g.install_dir] ∧
    g.compatdata_path = g.library_path ++ ["steamapps", "compatdata", g.appid] ∧
    g.shadercache_path = g.library_path ++ ["steamapps", "shadercache", g.appid] ∧
    (∀ q : FPath, fs.existsB q = true →
      (uninstall_game fs g false).1.existsB q = false →
      ∃ pr ∈ get_game_paths fs g, pr.1.isPrefixOf q = true) ∧
    ∀ q : FPath, (∀ pr ∈ get_game_paths fs g, sepB pr.1 q = true) →
      (uninstall_game fs g false).1.existsB q = fs.existsB q := by
  refine ⟨rfl, rfl, rfl, rfl, rfl, ?_, ?_⟩
  · intro q h1 h2
    rw [uninstall_game_fst] at h2
    have hA := delLoop_region false (get_game_paths fs g) fs 0
    obtain ⟨p, hp, hpre⟩ := agrees_removed hA h1 h2
    obtain ⟨pr, hpr, hpeq⟩ := List.mem_map.mp hp
    refine ⟨pr, hpr, ?_⟩
    rw [show pr.1 = p from hpeq]
    exact hpre
  · intro q hsep
    rw [uninstall_game_fst]
    have hA := delLoop_region false (get_game_paths fs g) fs 0
    apply agrees_existsB hA
    intro p hp
    obtain ⟨pr, hpr, hpeq⟩ := List.mem_map.mp hp
    rw [← hpeq]
    exact hsep pr hpr

theorem uninstall_plan_exact_and_frame_witness :
    (∃ pr ∈ get_game_paths fsOneManifest gameA,
      pr.1.isPrefixOf gameA.manifest_path = true) ∧
    (uninstall_game fsOneManifest gameA false).1.existsB ["Z"] =
      fsOneManifest.existsB ["Z"] :=
  ⟨(uninstall_plan_exact_and_frame fsOneManifest gameA).2.2.2.2.2.1
     gameA.manifest_path (by decide) (by decide),
   (uninstall_plan_exact_and_frame fsOneManifest gameA).2.2.2.2.2.2
     ["Z"] (by decide)⟩

/-- C2: `parse_vdf` is total (it is the finalized fold of the step machine
over the token stream, defined for every input string), a closing brace at
root level is a no-op on the parser state, and a trailing quoted string left
in key position adds no entry to the output. -/
theorem parse_vdf_total_permissive :
    (∀ s : String, parse_vdf s = parseToks (tokenize s.data)) ∧
    (∀ (cur : List (String × VDF)) (key : Option String),
      step ⟨[], cur, key⟩ Tok.rbrace = ⟨[], cur, key⟩) ∧
    (∀ (ts : List Tok) (k : String), (ts.foldl step initState).key = none →
      parseToks (ts ++ [Tok.str k]) = parseToks ts) := by
  refine ⟨fun s => rfl, fun cur key => rfl, ?_⟩
  intro ts k h
  rw [parseToks, parseToks, List.foldl_append, List.foldl_cons, List.foldl_nil]
  match hst : ts.foldl step initState with
  | ⟨ctx, cur, key⟩ =>
    rw [hst] at h
    simp only at h
    subst h
    rfl

theorem parse_vdf_total_permissive_witness :
    parse_vdf "" = parseToks (tokenize "".data) ∧
    step ⟨[], [], none⟩ Tok.rbrace = ⟨[], [], none⟩ ∧
    parseToks ([Tok.str "a", Tok.str "b"] ++ [Tok.str "c"]) =
      parseToks [Tok.str "a", Tok.str "b"] :=
  ⟨parse_vdf_total_permissive.1 "",
   parse_vdf_total_permissive.2.1 [] none,
   parse_vdf_total_permissive.2.2 [Tok.str "a", Tok.str "b"] "c" rfl⟩

/-- C3: on every well-formed document of the nested key-value grammar whose
quoted tokens are quote-free, `parse_vdf` of the rendered text produces the
expected tree: quoted strings pair up as key/value in the current scope, a
quoted string followed by an opening brace becomes a key bound to the nested
mapping, and duplicate keys in one scope are resolved last-write-wins
(the `dgo`/`dictSet` denotation). -/
theorem parse_vdf_wellformed_tree (d : Doc) (h : quoteFree d = true) :
    parse_vdf (String.mk (renderChars d)) = dgo d [] := by
  rw [parse_vdf]
  show parseToks (tokenize (renderChars d)) = dgo d []
  have h1 : tokenize (renderChars d) = docToks d := by
    have h2 := tokenize_doc d [] h
    simpa [tokenize, tokenizeF] using h2
  rw [h1]
  show finalize (List.foldl step initState (docToks d)).ctx
    (List.foldl step initState (docToks d)).cur = dgo d []
  have h3 : List.foldl step initState (docToks d) = ⟨[], dgo d [], none⟩ := by
    have h4 := foldl_step_doc d [] [] []
    simpa using h4
  rw [h3]
  rfl

theorem parse_vdf_wellformed_tree_witness :
    quoteFree docW = true ∧
    parse_vdf (String.mk (renderChars docW)) = dgo docW [] :=
  ⟨by decide, parse_vdf_wellformed_tree docW (by decide)⟩

/-- C4 counterexample: with one 10-byte manifest on disk and the same package
listed twice, the dry-run batch reports 20 bytes but the live batch frees
only 10, so dry-run and live totals differ on this input. -/
theorem dry_run_totals_counterexample :
    ¬ ((uninstall_games fsOneManifest [gameA, gameA] true).2.total_bytes_freed =
       (uninstall_games fsOneManifest [gameA, gameA] false).2.total_bytes_freed) := by
  decide

/-- C4 (amended): when no removal errors are injected and the four derived
paths of the listed packages are pairwise non-overlapping across packages
(in particular no package is listed twice), the dry-run batch reports the
same bytes-freed total as the live batch from the same initial filesystem;
and a dry-run batch always leaves the filesystem untouched. -/
theorem dry_run_equiv_amended (fs : FS) (games : List SteamGame)
    (hrm : fs.rmErrs = [])
    (hpw : games.Pairwise
      (fun g₁ g₂ => ∀ p ∈ candPaths g₁, ∀ q ∈ candPaths g₂, sepB p q = true))
    (hintra : ∀ g ∈ games, (candPaths g).Pairwise (fun p q => sepB p q = true)) :
    (uninstall_games fs games true).2.total_bytes_freed =
      (uninstall_games fs games false).2.total_bytes_freed ∧
    (uninstall_games fs games true).1 = fs := by
  constructor
  · show ((runBatch true fs games).2.map (fun r => r.bytes_freed)).sum =
      ((runBatch false fs games).2.map (fun r => r.bytes_freed)).sum
    exact (congrArg List.sum (runBatch_dry_live games fs fs [] (agrees_refl fs []) hrm
      (fun g _ q _ p hp => absurd hp (List.not_mem_nil p)) hpw hintra)).symm
  · show (runBatch true fs games).1 = fs
    exact runBatch_dry_fst games fs

theorem dry_run_equiv_amended_witness :
    fsTwoGames.rmErrs = [] ∧
    ((uninstall_games fsTwoGames [gameA, gameB] true).2.total_bytes_freed =
      (uninstall_games fsTwoGames [gameA, gameB] false).2.total_bytes_freed ∧
     (uninstall_games fsTwoGames [gameA, gameB] true).1 = fsTwoGames) :=
  ⟨by decide,
   dry_run_equiv_amended fsTwoGames [gameA, gameB] (by decide) (by decide) (by decide)⟩

/-- C5: a package whose deletion loop hits a removal or measurement error
yields (without raising) a failure result carrying the classified
human-readable message and the bytes accounted before the failure; the loop
stops at the first error (entries after it are never processed); and in a
batch each package's result is produced independently of the others'
success, so one failure does not prevent processing the rest. -/
theorem uninstall_failure_isolated :
    (∀ (fs : FS) (g : SteamGame) (dry : Bool) (e : PyErr),
      (delLoop dry fs (get_game_paths fs g) 0).err = some e →
      (uninstall_game fs g dry).2 =
        ⟨g, false, some (errMsg e), (delLoop dry fs (get_game_paths fs g) 0).bytes⟩) ∧
    (∀ (dry : Bool) (l₁ l₂ : List (FPath × String)) (fs : FS) (acc : Nat),
      (delLoop dry fs l₁ acc).err.isSome = true →
      delLoop dry fs (l₁ ++ l₂) acc = delLoop dry fs l₁ acc) ∧
    (∀ (fs : FS) (dry : Bool) (g : SteamGame) (gs : List SteamGame),
      (uninstall_games fs (g :: gs) dry).2.results =
        (uninstall_game fs g dry).2 ::
          (uninstall_games (uninstall_game fs g dry).1 gs dry).2.results) := by
  refine ⟨?_, ?_, ?_⟩
  · intro fs g dry e h
    simp only [uninstall_game]
    rw [h]
  · intro dry l₁ l₂ fs acc h
    exact delLoop_append_of_err dry l₁ fs acc h l₂
  · intro fs dry g gs
    rfl

theorem uninstall_failure_isolated_witness :
    (uninstall_game fsPermErr gameA false).2 =
      ⟨gameA, false, some (errMsg (PyErr.perm "x")),
       (delLoop false fsPermErr (get_game_paths fsPermErr gameA) 0).bytes⟩ ∧
    delLoop false fsPermErr (get_game_paths fsPermErr gameA ++ [(["Z"], "extra")]) 0 =
      delLoop false fsPermErr (get_game_paths fsPermErr gameA) 0 ∧
    (uninstall_games fsPermErr (gameA :: [gameB]) false).2.results =
      (uninstall_game fsPermErr gameA false).2 ::
        (uninstall_games (uninstall_game fsPermErr gameA false).1 [gameB] false).2.results :=
  ⟨uninstall_failure_isolated.1 fsPermErr gameA false (PyErr.perm "x") (by decide),
   uninstall_failure_isolated.2.1 false (get_game_paths fsPermErr gameA) [(["Z"], "extra")]
     fsPermErr 0 (by decide),
   uninstall_failure_isolated.2.2 fsPermErr false gameA [gameB]⟩

/-- C6: every game in a built catalog has a payload directory that existed at
catalog-build time, and a display name containing neither "Runtime" nor
"Proton"; so descriptors with a missing payload and runtime/tool components
never yield catalog entries. -/
theorem catalog_membership_invariant (fs : CatFS) (home : FPath)
    (l : List SteamGame) (g : SteamGame)
    (hl : get_all_installed_games fs home = some l) (hg : g ∈ l) :
    fs.existsB g.game_path = true ∧
    hasSubstrS g.name "Runtime" = false ∧ hasSubstrS g.name "Proton" = false := by
  rw [get_all_installed_games] at hl
  match hr : find_steam_root fs home with
  | none =>
    simp only [hr, Option.some.injEq] at hl
    subst hl
    simp at hg
  | some root =>
    simp only [hr] at hl
    match hlf : get_library_folders fs root with
    | none =>
      simp only [hlf] at hl
      exact Option.noConfusion hl
    | some libs =>
      simp only [hlf, Option.some.injEq] at hl
      subst hl
      rw [mem_pySorted, List.mem_flatten] at hg
      obtain ⟨s, hs, hgs⟩ := hg
      obtain ⟨lib, _, hleq⟩ := List.mem_map.mp hs
      rw [← hleq] at hgs
      exact mem_get_installed fs lib _ g hgs

theorem catalog_membership_invariant_witness :
    catFsW.existsB gameW.game_path = true ∧
    hasSubstrS gameW.name "Runtime" = false ∧ hasSubstrS gameW.name "Proton" = false :=
  catalog_membership_invariant catFsW homeW [gameW] gameW (by decide) (by decide)

/-- C7 counterexample: a library-folders descriptor referencing the existing
path `/a` under two keys makes `get_library_folders` return that path twice
(after inserting the probed root at the front), so the returned list is not
deduplicated by path equality. -/
theorem library_folders_dup_counterexample :
    get_library_folders catFsDup ["r"] = some [["r"], ["/a"], ["/a"]] ∧
    ¬ ([["r"], ["/a"], ["/a"]] : List FPath).Nodup := by
  constructor
  · decide
  · decide

/-- C7 (amended): with the descriptor absent, `get_library_folders` returns
exactly the probed root; otherwise, whenever it returns a list, the probed
root is in the list and every listed path is the root or exists on disk, and
the list is the existing referenced paths in descriptor order with the root
inserted at the front exactly when no referenced entry equals it — duplicate
referenced paths are retained (no deduplication beyond that root check). -/
theorem library_folders_amended (fs : CatFS) (root : FPath) :
    (fs.readText (root ++ ["steamapps", "libraryfolders.vdf"]) = none →
      get_library_folders fs root = some [root]) ∧
    (∀ libs, get_library_folders fs root = some libs →
      root ∈ libs ∧ ∀ p ∈ libs, p = root ∨ fs.existsB p = true) ∧
    (∀ (content : String) (lib : List (String × VDF)) (ls : List FPath),
      fs.readText (root ++ ["steamapps", "libraryfolders.vdf"]) = some content →
      vdfLookup (parse_vdf content) "libraryfolders" = some (VDF.obj lib) →
      collectLibs fs lib = some ls →
      get_library_folders fs root =
        some (if ls.any (fun p => p == root) then ls else root :: ls)) := by
  refine ⟨?_, ?_, ?_⟩
  · intro h
    rw [get_library_folders, h]
  · intro libs h
    rw [get_library_folders] at h
    match ht : fs.readText (root ++ ["steamapps", "libraryfolders.vdf"]) with
    | none =>
      simp only [ht, Option.some.injEq] at h
      subst h
      refine ⟨List.mem_singleton_self root, ?_⟩
      intro p hp
      rw [List.mem_singleton] at hp
      left
      exact hp
    | some content =>
      simp only [ht] at h
      match hlk : vdfLookup (parse_vdf content) "libraryfolders" with
      | some (VDF.str s) =>
        simp only [hlk] at h
        exact Option.noConfusion h
      | none =>
        simp only [hlk, Option.some.injEq] at h
        subst h
        refine ⟨List.mem_singleton_self root, ?_⟩
        intro p hp
        rw [List.mem_singleton] at hp
        left
        exact hp
      | some (VDF.obj lib) =>
        simp only [hlk] at h
        match hc : collectLibs fs lib with
        | none =>
          simp only [hc] at h
          exact Option.noConfusion h
        | some ls =>
          rw [hc, Option.map_some'] at h
          have h' := Option.some.inj h
          subst h'
          by_cases hin : ls.any (fun p => p == root) = true
          · rw [if_pos hin]
            constructor
            · obtain ⟨x, hx, hxr⟩ := List.any_eq_true.mp hin
              rw [beq_iff_eq] at hxr
              rw [← hxr]
              exact hx
            · intro p hp
              right
              exact collectLibs_exists fs lib ls hc p hp
          · rw [if_neg hin]
            constructor
            · exact List.mem_cons_self root ls
            · intro p hp
              rcases List.mem_cons.mp hp with rfl | hp
              · left; rfl
              · right
                exact collectLibs_exists fs lib ls hc p hp
  · intro content lib ls h1 h2 h3
    simp only [get_library_folders, h1, h2, h3, Option.map_some']

theorem library_folders_amended_witness :
    get_library_folders catFsBare ["r"] = some [["r"]] ∧
    (["r"] : FPath) ∈ [(["r"] : FPath), ["/a"], ["/a"]] ∧
    (∀ p ∈ [(["r"] : FPath), ["/a"], ["/a"]], p = ["r"] ∨ catFsDup.existsB p = true) :=
  ⟨(library_folders_amended catFsBare ["r"]).1 (by decide),
   ((library_folders_amended catFsDup ["r"]).2.1 [["r"], ["/a"], ["/a"]] (by decide)).1,
   ((library_folders_amended catFsDup ["r"]).2.1 [["r"], ["/a"], ["/a"]] (by decide)).2⟩

/-- C8: every catalog the builder returns is sorted ascending by the
lowercased display name, and rebuilding over an identical filesystem state
and home yields the identical ordered list. -/
theorem catalog_sorted_deterministic (fs : CatFS) (home : FPath) (l : List SteamGame)
    (hl : get_all_installed_games fs home = some l) :
    l.Pairwise (fun g₁ g₂ => nameLe g₁ g₂ = true) ∧
    (∀ (fs₂ : CatFS) (home₂ : FPath), fs₂ = fs → home₂ = home →
      get_all_installed_games fs₂ home₂ = some l) := by
  constructor
  · rw [get_all_installed_games] at hl
    match hr : find_steam_root fs home with
    | none =>
      simp only [hr, Option.some.injEq] at hl
      subst hl
      exact List.Pairwise.nil
    | some root =>
      simp only [hr] at hl
      match hlf : get_library_folders fs root with
      | none =>
        simp only [hlf] at hl
        exact Option.noConfusion hl
      | some libs =>
        simp only [hlf, Option.some.injEq] at hl
        subst hl
        exact pairwise_pySorted nameLe nameLe_total nameLe_trans _
  · intro fs₂ home₂ h1 h2
    rw [h1, h2]
    exact hl

theorem catalog_sorted_deterministic_witness :
    ([gameW] : List SteamGame).Pairwise (fun g₁ g₂ => nameLe g₁ g₂ = true) ∧
    (∀ (fs₂ : CatFS) (home₂ : FPath), fs₂ = catFsW → home₂ = homeW →
      get_all_installed_games fs₂ home₂ = some [gameW]) :=
  catalog_sorted_deterministic catFsW homeW [gameW] (by decide)

/-- C9: the batch summary has one result per input package in input order
(the results' games are exactly the input list), and its aggregates are
consistent: `total_games` is the input length, `successful` counts the
successful results, `failed` is the difference, and `total_bytes_freed` is
the sum of the per-result bytes. -/
theorem summary_consistency (fs : FS) (games : List SteamGame) (dry : Bool) :
    (uninstall_games fs games dry).2.results.map (fun r => r.game) = games ∧
    (uninstall_games fs games dry).2.total_games = games.length ∧
    (uninstall_games fs games dry).2.successful =
      ((uninstall_games fs games dry).2.results.filter (fun r => r.success)).length ∧
    (uninstall_games fs games dry).2.failed =
      (uninstall_games fs games dry).2.total_games -
        (uninstall_games fs games dry).2.successful ∧
    (uninstall_games fs games dry).2.total_bytes_freed =
      ((uninstall_games fs games dry).2.results.map (fun r => r.bytes_freed)).sum := by
  refine ⟨?_, rfl, rfl, rfl, rfl⟩
  exact runBatch_games dry games fs

/-- C10: an opening brace read while no key is pending is ignored entirely:
the parse of the remaining tokens proceeds exactly as if the brace were
absent, so following pairs attach to the current scope and a later closing
brace closes the enclosing scope, not the one the stray brace appeared to
open. -/
theorem stray_lbrace_ignored (st : PState) (ts : List Tok) (h : st.key = none) :
    List.foldl step st (Tok.lbrace :: ts) = List.foldl step st ts := by
  rw [List.foldl_cons]
  match st with
  | ⟨ctx, cur, key⟩ =>
    simp only at h
    subst h
    rfl

theorem stray_lbrace_ignored_witness :
    List.foldl step initState (Tok.lbrace :: [Tok.str "c", Tok.str "d", Tok.rbrace]) =
      List.foldl step initState [Tok.str "c", Tok.str "d", Tok.rbrace] :=
  stray_lbrace_ignored initState [Tok.str "c", Tok.str "d", Tok.rbrace] rfl

end SteamBulk
